import Mathlib

/-!
Verification of the nanogpt-discord core against its specification.

The development shallowly embeds two parts of the repository:

* the response segmenter: the chunk-splitting loop that appears verbatim in
  `src/bot/commands/chat.ts` (execute) and `src/bot/commands/memory.ts`
  (handleChat), modelled over `List Char`;
* the persistence layer of `src/db/index.ts`: guild/user model preferences,
  scoped document contexts and the per-user memory ledger, modelled as pure
  state-passing functions over an explicit database state, with the SQL
  statements of the source translated to list operations.

JavaScript-specific semantics that the source relies on are modelled
faithfully: `String.prototype.lastIndexOf(pat, pos)`, `String.prototype.trim`
(both ends), truthiness of strings (the empty string is falsy) and the
SQLite rule that NULL values are pairwise distinct inside UNIQUE indexes.
-/

namespace Bot

/-! ## Response segmenter (chat.ts execute / memory.ts handleChat) -/

/-- Whitespace as recognised by the JavaScript `trim` (the ASCII part:
space, tab, newline, carriage return, vertical tab, form feed). -/
def isJsWhitespace (c : Char) : Bool :=
  c = ' ' || c = '\n' || c = '\t' || c = '\r' || c = Char.ofNat 11 || c = Char.ofNat 12

/-- Left half of the JavaScript `trim`. -/
def trimLeftChars (l : List Char) : List Char :=
  l.dropWhile isJsWhitespace

/-- Right half of the JavaScript `trim`. -/
def trimRightChars (l : List Char) : List Char :=
  (l.reverse.dropWhile isJsWhitespace).reverse

/-- The JavaScript `String.prototype.trim`: removes whitespace from both
ends of the string (`remaining.substring(breakPoint).trim()` in the source). -/
def jsTrim (l : List Char) : List Char :=
  trimRightChars (trimLeftChars l)

/-- `occursAt pat s i` holds when the pattern `pat` occurs in `s` starting at
index `i`. -/
def occursAt (pat s : List Char) (i : Nat) : Bool :=
  pat.isPrefixOf (s.drop i)

/-- Search downward from index `i` for the greatest occurrence of `pat`. -/
def lastIndexOfAux (s pat : List Char) : Nat → Option Nat
  | 0 => if occursAt pat s 0 then some 0 else none
  | i + 1 => if occursAt pat s (i + 1) then some (i + 1) else lastIndexOfAux s pat i

/-- The JavaScript `s.lastIndexOf(pat, pos)`: index of the last occurrence of
`pat` starting at or before `pos`, or `-1` when there is none. -/
def jsLastIndexOf (s pat : List Char) (pos : Nat) : Int :=
  match lastIndexOfAux s pat pos with
  | some i => (i : Int)
  | none => -1

/-- The break-point cascade of the chunk-splitting loop (chat.ts lines
243-252).  The JavaScript comparison `breakPoint < MAX_LENGTH / 2` is real
division; for an integer `breakPoint` it is equivalent to
`2 * breakPoint < MAX_LENGTH`, which is how it is written here. -/
def findBreakPoint (remaining : List Char) (maxLength : Nat) : Int :=
  let bp1 := jsLastIndexOf remaining ['\n', '\n'] maxLength
  let bp2 := if bp1 = -1 ∨ 2 * bp1 < (maxLength : Int) then
    jsLastIndexOf remaining ['\n'] maxLength else bp1
  let bp3 := if bp2 = -1 ∨ 2 * bp2 < (maxLength : Int) then
    jsLastIndexOf remaining [' '] maxLength else bp2
  if bp3 = -1 then (maxLength : Int) else bp3

/-- Fuel-indexed form of the `while (remaining.length > 0)` loop.  One unit
of fuel is spent per iteration; `segment_fuel_sufficient` below shows the
fuel passed by `segment` is never exhausted when `1 ≤ maxLength`. -/
def segmentAux (maxLength : Nat) : Nat → List Char → List (List Char)
  | 0, _ => []
  | fuel + 1, remaining =>
    if remaining.length = 0 then []
    else if remaining.length ≤ maxLength then [remaining]
    else
      let bp := (findBreakPoint remaining maxLength).toNat
      remaining.take bp :: segmentAux maxLength fuel (jsTrim (remaining.drop bp))

/-- The response segmenter: a message that fits in one chunk is sent as is
(the `assistantMessage.length <= MAX_LENGTH` branch of the source), longer
messages go through the chunk-splitting loop. -/
def segment (text : List Char) (maxLength : Nat) : List (List Char) :=
  if text.length ≤ maxLength then [text]
  else segmentAux maxLength text.length text

/-! ## Persistence layer (src/db/index.ts) -/

/-- A row of the `guilds` table. -/
structure GuildRow where
  id : String
  default_model : Option String
  deriving Repr, DecidableEq

/-- A row of the `users` table. -/
structure UserRow where
  id : String
  default_model : Option String
  deriving Repr, DecidableEq

/-- A row of the `contexts` table; `user_id = none` models SQL NULL,
meaning the context is server-scoped. -/
structure ContextRow where
  id : Nat
  guild_id : String
  user_id : Option String
  name : String
  content : String
  source_filename : String
  file_type : String
  created_at : Nat
  deriving Repr, DecidableEq

/-- A row of the `memories` table. -/
structure MemoryRow where
  id : Nat
  user_id : String
  role : String
  content : String
  model : Option String
  created_at : Nat
  deriving Repr, DecidableEq

/-- The database state: the four tables (rows kept in insertion, i.e.
rowid, order) together with the AUTOINCREMENT counters. -/
structure DB where
  guilds : List GuildRow
  users : List UserRow
  contexts : List ContextRow
  memories : List MemoryRow
  nextContextId : Nat
  nextMemoryId : Nat
  deriving Repr, DecidableEq

/-- The freshly initialised database. -/
def DB.init : DB :=
  { guilds := [], users := [], contexts := [], memories := [],
    nextContextId := 1, nextMemoryId := 1 }

/-- JavaScript truthiness of a nullable string: `null`/`undefined` and the
empty string are falsy.  Returns the string when truthy. -/
def jsTruthyString : Option String → Option String
  | some s => if s = "" then none else some s
  | none => none

/-- `queries.getGuild`: `SELECT * FROM guilds WHERE id = ?`. -/
def getGuild (db : DB) (guildId : String) : Option GuildRow :=
  db.guilds.find? (fun g => decide (g.id = guildId))

/-- `queries.getUser`: `SELECT * FROM users WHERE id = ?`. -/
def getUser (db : DB) (userId : String) : Option UserRow :=
  db.users.find? (fun u => decide (u.id = userId))

/-- `queries.upsertGuild`: INSERT with ON CONFLICT(id) DO UPDATE of
`default_model`. -/
def upsertGuild (db : DB) (guildId model : String) : DB :=
  if db.guilds.any (fun g => decide (g.id = guildId)) then
    { db with guilds := db.guilds.map (fun g =>
        if g.id = guildId then { g with default_model := some model } else g) }
  else
    { db with guilds := db.guilds ++ [{ id := guildId, default_model := some model }] }

/-- `queries.upsertUser`: INSERT with ON CONFLICT(id) DO UPDATE of
`default_model`. -/
def upsertUser (db : DB) (userId model : String) : DB :=
  if db.users.any (fun u => decide (u.id = userId)) then
    { db with users := db.users.map (fun u =>
        if u.id = userId then { u with default_model := some model } else u) }
  else
    { db with users := db.users ++ [{ id := userId, default_model := some model }] }

/-- `setGuildModel` from the source. -/
def setGuildModel (db : DB) (guildId model : String) : DB :=
  upsertGuild db guildId model

/-- `setUserModel` from the source. -/
def setUserModel (db : DB) (userId model : String) : DB :=
  upsertUser db userId model

/-- The user-level preference as the source reads it: the row of the user,
if any, with its `default_model` subjected to the truthiness test of
`if (user?.default_model)`. -/
def effectiveUserModel (db : DB) (userId : String) : Option String :=
  jsTruthyString ((getUser db userId).bind UserRow.default_model)

/-- The guild-level preference as the source reads it, with the truthiness
test of `if (guild?.default_model)`. -/
def effectiveGuildModel (db : DB) (guildId : String) : Option String :=
  jsTruthyString ((getGuild db guildId).bind GuildRow.default_model)

/-- The process-wide fallback: `process.env.DEFAULT_MODEL || "gpt-4o-mini"`.
`envDefault` stands for `process.env.DEFAULT_MODEL`. -/
def fallbackDefault (envDefault : Option String) : String :=
  (jsTruthyString envDefault).getD "gpt-4o-mini"

/-- `getDefaultModel` from the source: user preference, then guild
preference, then the process-wide fallback. -/
def getDefaultModel (db : DB) (guildId userId : String) (envDefault : Option String) : String :=
  match effectiveUserModel db userId with
  | some m => m
  | none =>
    match effectiveGuildModel db guildId with
    | some m => m
    | none => fallbackDefault envDefault

/-- Errors surfaced by the store. -/
inductive SqlError where
  | uniqueViolation
  deriving Repr, DecidableEq

/-- Does inserting `(guildId, userId, name)` violate
`UNIQUE(guild_id, user_id, name)`?  SQLite treats NULL values inside a
unique index as pairwise distinct, so a row with `user_id = none` never
conflicts with anything. -/
def contextConflict (rows : List ContextRow) (guildId : String) (userId : Option String)
    (name : String) : Bool :=
  match userId with
  | none => false
  | some u => rows.any (fun r =>
      decide (r.guild_id = guildId ∧ r.user_id = some u ∧ r.name = name))

/-- One INSERT into `contexts` (`insertServerContext` / `insertUserContext`).
`now` is the value `unixepoch()` assigns to `created_at`. -/
def insertContext (db : DB) (guildId : String) (userId : Option String)
    (name content sourceFilename fileType : String) (now : Nat) : Except SqlError DB :=
  if contextConflict db.contexts guildId userId name then
    Except.error SqlError.uniqueViolation
  else
    Except.ok { db with
      contexts := db.contexts ++
        [{ id := db.nextContextId, guild_id := guildId, user_id := userId, name := name,
           content := content, source_filename := sourceFilename, file_type := fileType,
           created_at := now }],
      nextContextId := db.nextContextId + 1 }

/-- `addContext` from the source.  The dispatch on `if (userId)` is the
JavaScript truthiness test, so an absent (or empty) userId inserts into the
server scope (`user_id` NULL). -/
def addContext (db : DB) (guildId name content sourceFilename fileType : String)
    (userId : Option String) (now : Nat) : Except SqlError DB :=
  match jsTruthyString userId with
  | some uid => insertContext db guildId (some uid) name content sourceFilename fileType now
  | none => insertContext db guildId none name content sourceFilename fileType now

/-- `queries.getServerContext`: first row (rowid order) with this guild and
name and `user_id IS NULL`. -/
def getServerContext (db : DB) (guildId name : String) : Option ContextRow :=
  db.contexts.find? (fun r =>
    decide (r.guild_id = guildId ∧ r.name = name ∧ r.user_id = none))

/-- `queries.getUserContext`: first row with this guild, user and name. -/
def getUserContext (db : DB) (guildId userId name : String) : Option ContextRow :=
  db.contexts.find? (fun r =>
    decide (r.guild_id = guildId ∧ r.user_id = some userId ∧ r.name = name))

/-- `getContext` from the source: when a (truthy) userId is given the
user-scoped row is looked up first, and only on absence does the lookup
fall back to the server-scoped row of the same name. -/
def getContext (db : DB) (guildId name : String) (userId : Option String) : Option ContextRow :=
  match jsTruthyString userId with
  | some uid =>
    match getUserContext db guildId uid name with
    | some r => some r
    | none => getServerContext db guildId name
  | none => getServerContext db guildId name

/-- The `ORDER BY created_at DESC` order on context rows: newer first, the
rowid breaking ties. -/
def ctxGe (a b : ContextRow) : Prop :=
  b.created_at < a.created_at ∨ (a.created_at = b.created_at ∧ b.id ≤ a.id)

instance : DecidableRel ctxGe := fun a b => by unfold ctxGe; infer_instance

instance : IsTotal ContextRow ctxGe := ⟨fun a b => by unfold ctxGe; omega⟩

instance : IsTrans ContextRow ctxGe := ⟨fun a b c hab hbc => by unfold ctxGe at *; omega⟩

/-- The `ORDER BY created_at DESC` order on memory rows: newer first, the
rowid breaking ties (the order of the scan over the
`(user_id, created_at)` index). -/
def memGe (a b : MemoryRow) : Prop :=
  b.created_at < a.created_at ∨ (a.created_at = b.created_at ∧ b.id ≤ a.id)

instance : DecidableRel memGe := fun a b => by unfold memGe; infer_instance

instance : IsTotal MemoryRow memGe := ⟨fun a b => by unfold memGe; omega⟩

instance : IsTrans MemoryRow memGe := ⟨fun a b c hab hbc => by unfold memGe at *; omega⟩

/-- A result set ordered by `ORDER BY created_at DESC` (contexts). -/
def sortCtxDesc (l : List ContextRow) : List ContextRow :=
  List.insertionSort ctxGe l

/-- A result set ordered by `ORDER BY created_at DESC` (memories). -/
def sortMemDesc (l : List MemoryRow) : List MemoryRow :=
  List.insertionSort memGe l

/-- `getAllContexts` from the source: the personal contexts of the (truthy)
userId, or the server-scoped contexts, most recent first
(`ORDER BY created_at DESC`). -/
def getAllContexts (db : DB) (guildId : String) (userId : Option String) : List ContextRow :=
  match jsTruthyString userId with
  | some uid => sortCtxDesc (db.contexts.filter (fun r =>
      decide (r.guild_id = guildId ∧ r.user_id = some uid)))
  | none => sortCtxDesc (db.contexts.filter (fun r =>
      decide (r.guild_id = guildId ∧ r.user_id = none)))

/-- `removeContext` from the source: DELETE in the addressed scope only,
returning `result.changes > 0`. -/
def removeContext (db : DB) (guildId name : String) (userId : Option String) : Bool × DB :=
  match jsTruthyString userId with
  | some uid =>
    let removed := db.contexts.filter (fun r =>
      decide (r.guild_id = guildId ∧ r.user_id = some uid ∧ r.name = name))
    (decide (0 < removed.length),
     { db with contexts := db.contexts.filter (fun r =>
         !decide (r.guild_id = guildId ∧ r.user_id = some uid ∧ r.name = name)) })
  | none =>
    let removed := db.contexts.filter (fun r =>
      decide (r.guild_id = guildId ∧ r.name = name ∧ r.user_id = none))
    (decide (0 < removed.length),
     { db with contexts := db.contexts.filter (fun r =>
         !decide (r.guild_id = guildId ∧ r.name = name ∧ r.user_id = none)) })

/-- `addMemoryMessage` from the source.  The stored model is
`model || null`, i.e. the truthiness-filtered value; `now` is the
`unixepoch()` timestamp of the new row. -/
def addMemoryMessage (db : DB) (userId role content : String) (model : Option String)
    (now : Nat) : DB :=
  { db with
    memories := db.memories ++
      [{ id := db.nextMemoryId, user_id := userId, role := role, content := content,
         model := jsTruthyString model, created_at := now }],
    nextMemoryId := db.nextMemoryId + 1 }

/-- The rows of one user, in rowid order. -/
def memoryRowsOf (db : DB) (userId : String) : List MemoryRow :=
  db.memories.filter (fun r => decide (r.user_id = userId))

/-- `getMemoryHistory` from the source:
`SELECT * FROM memories WHERE user_id = ? ORDER BY created_at DESC LIMIT ?`
followed by `rows.reverse().map(...)`.  The ORDER BY names no tie break; the
model fixes the behaviour of the scan over the `(user_id, created_at)`
index, under which equal timestamps come out in descending rowid order. -/
def getMemoryHistory (db : DB) (userId : String) (limit : Nat) : List (String × String) :=
  let rows := sortMemDesc (memoryRowsOf db userId)
  ((rows.take limit).reverse).map (fun r => (r.role, r.content))

/-- `clearMemory` from the source: DELETE of the rows of the user, returning
`result.changes` (the number of deleted rows). -/
def clearMemory (db : DB) (userId : String) : Nat × DB :=
  ((memoryRowsOf db userId).length,
   { db with memories := db.memories.filter (fun r => !decide (r.user_id = userId)) })

/-- The result shape of `getMemoryStats`; timestamps are the millisecond
values of the constructed `Date` objects. -/
structure MemoryStats where
  count : Nat
  firstAt : Option Nat
  lastAt : Option Nat
  deriving Repr, DecidableEq

/-- Minimum of a list of naturals, `none` on the empty list (SQL `MIN`). -/
def sqlMin (l : List Nat) : Option Nat :=
  l.foldr (fun x acc => match acc with | none => some x | some y => some (Nat.min x y)) none

/-- Maximum of a list of naturals, `none` on the empty list (SQL `MAX`). -/
def sqlMax (l : List Nat) : Option Nat :=
  l.foldr (fun x acc => match acc with | none => some x | some y => some (Nat.max x y)) none

/-- Truthiness of a nullable number: `null` and `0` are falsy (the source
writes `row?.first_at ? new Date(row.first_at * 1000) : null`). -/
def jsTruthyNat : Option Nat → Option Nat
  | some n => if n = 0 then none else some n
  | none => none

/-- `getMemoryStats` from the source: COUNT, MIN and MAX of `created_at`
over the rows of the user, the timestamps turned into `Date` values
(milliseconds) through the truthiness test. -/
def getMemoryStats (db : DB) (userId : String) : MemoryStats :=
  let rows := memoryRowsOf db userId
  { count := rows.length,
    firstAt := (jsTruthyNat (sqlMin (rows.map MemoryRow.created_at))).map (fun t => t * 1000),
    lastAt := (jsTruthyNat (sqlMax (rows.map MemoryRow.created_at))).map (fun t => t * 1000) }

/-! ## Specification-side vocabulary and claim-worded variants -/

/-- There is an occurrence of `pat` at or before `M` lying in the upper half
of the window, i.e. one that passes the `breakPoint < MAX_LENGTH / 2` test. -/
abbrev HasUpperHalfBreak (pat rem : List Char) (M : Nat) : Prop :=
  ∃ i : Nat, i ≤ M ∧ occursAt pat rem i = true ∧ M ≤ 2 * i

/-- `i` is the last occurrence of `pat` at or before `M`. -/
abbrev IsLastBreak (pat rem : List Char) (M i : Nat) : Prop :=
  i ≤ M ∧ occursAt pat rem i = true ∧
    ∀ j : Nat, j ≤ M → occursAt pat rem j = true → j ≤ i

/-- A list all of whose characters are whitespace. -/
abbrev IsWsList (l : List Char) : Prop := ∀ c ∈ l, isJsWhitespace c = true

/-- `Recon chunks text` holds when `text` is exactly the chunks in order,
each chunk followed by a (possibly empty) run of whitespace.  This is the
sense in which the concatenation of the chunks reconstructs the original
text losslessly up to whitespace trimmed at chunk boundaries. -/
inductive Recon : List (List Char) → List Char → Prop
  | nil (w : List Char) : IsWsList w → Recon [] w
  | cons (c w : List Char) (chs : List (List Char)) (t : List Char) :
      IsWsList w → Recon chs t → Recon (c :: chs) (c ++ (w ++ t))

/-- Modelled from the words of claim C2, not from the source: the same
cascade but with the half-window test applied to the space candidate as
well, so that a last space below the halfway point falls through to the
hard cut. -/
def findBreakPointSpecHalfAll (remaining : List Char) (maxLength : Nat) : Int :=
  let bp1 := jsLastIndexOf remaining ['\n', '\n'] maxLength
  let bp2 := if bp1 = -1 ∨ 2 * bp1 < (maxLength : Int) then
    jsLastIndexOf remaining ['\n'] maxLength else bp1
  let bp3 := if bp2 = -1 ∨ 2 * bp2 < (maxLength : Int) then
    jsLastIndexOf remaining [' '] maxLength else bp2
  if bp3 = -1 ∨ 2 * bp3 < (maxLength : Int) then (maxLength : Int) else bp3

/-- Modelled from the words of claim C3, not from the source: the same loop
but with the remaining tail trimmed only on its left (leading) side after
each cut. -/
def segmentAuxLeftTrim (maxLength : Nat) : Nat → List Char → List (List Char)
  | 0, _ => []
  | fuel + 1, remaining =>
    if remaining.length = 0 then []
    else if remaining.length ≤ maxLength then [remaining]
    else
      let bp := (findBreakPoint remaining maxLength).toNat
      remaining.take bp ::
        segmentAuxLeftTrim maxLength fuel (trimLeftChars (remaining.drop bp))

/-- The claim-worded left-trim-only segmenter (see `segmentAuxLeftTrim`). -/
def segmentLeftTrim (text : List Char) (maxLength : Nat) : List (List Char) :=
  if text.length ≤ maxLength then [text]
  else segmentAuxLeftTrim maxLength text.length text

/-- The rows of the `memories` table as produced by the running system:
rowids strictly increase along the table and `created_at` (a wall-clock
second written at insertion time) never decreases.  Every state reachable
by `addMemoryMessage` from `DB.init` with a monotone clock satisfies this. -/
abbrev MemOrdered (db : DB) : Prop :=
  db.memories.Pairwise (fun a b => a.id < b.id ∧ a.created_at ≤ b.created_at)

/-! ## Properties of the segmenter -/


theorem lastIndexOfAux_spec (s pat : List Char) (pos : Nat) :
    (lastIndexOfAux s pat pos = none ∧ ∀ j : Nat, j ≤ pos → occursAt pat s j = false) ∨
    (∃ i : Nat, lastIndexOfAux s pat pos = some i ∧ IsLastBreak pat s pos i) := by
  induction pos with
  | zero =>
    by_cases h : occursAt pat s 0 = true
    · exact Or.inr ⟨0, by simp [lastIndexOfAux, h], Nat.le_refl 0, h, fun j hj _ => hj⟩
    · simp only [Bool.not_eq_true] at h
      refine Or.inl ⟨by simp [lastIndexOfAux, h], ?_⟩
      intro j hj
      have hj0 : j = 0 := Nat.le_zero.mp hj
      rw [hj0]; exact h
  | succ n ih =>
    by_cases h : occursAt pat s (n + 1) = true
    · exact Or.inr ⟨n + 1, by simp [lastIndexOfAux, h], Nat.le_refl _, h, fun j hj _ => hj⟩
    · simp only [Bool.not_eq_true] at h
      have hrw : lastIndexOfAux s pat (n + 1) = lastIndexOfAux s pat n := by
        simp [lastIndexOfAux, h]
      rcases ih with ⟨hnone, hall⟩ | ⟨i, hsome, hile, hocc, hmax⟩
      · refine Or.inl ⟨hrw.trans hnone, ?_⟩
        intro j hj
        rcases Nat.lt_or_ge j (n + 1) with hlt | hge
        · exact hall j (Nat.lt_succ_iff.mp hlt)
        · have hj1 : j = n + 1 := Nat.le_antisymm hj hge
          rw [hj1]; exact h
      · refine Or.inr ⟨i, hrw.trans hsome, Nat.le_succ_of_le hile, hocc, ?_⟩
        intro j hj hoccj
        rcases Nat.lt_or_ge j (n + 1) with hlt | hge
        · exact hmax j (Nat.lt_succ_iff.mp hlt) hoccj
        · exfalso
          have hj1 : j = n + 1 := Nat.le_antisymm hj hge
          rw [hj1] at hoccj
          rw [hoccj] at h
          exact Bool.noConfusion h

theorem jsLastIndexOf_of_none (s pat : List Char) (pos : Nat)
    (h : lastIndexOfAux s pat pos = none) : jsLastIndexOf s pat pos = -1 := by
  simp [jsLastIndexOf, h]

theorem jsLastIndexOf_of_some (s pat : List Char) (pos i : Nat)
    (h : lastIndexOfAux s pat pos = some i) : jsLastIndexOf s pat pos = (i : Int) := by
  simp [jsLastIndexOf, h]

theorem findBreakPoint_case_dnl (rem : List Char) (M : Nat)
    (hc : ¬(jsLastIndexOf rem ['\n', '\n'] M = -1 ∨
      2 * jsLastIndexOf rem ['\n', '\n'] M < (M : Int))) :
    findBreakPoint rem M = jsLastIndexOf rem ['\n', '\n'] M := by
  have hne : ¬ jsLastIndexOf rem ['\n', '\n'] M = -1 := fun h => hc (Or.inl h)
  simp only [findBreakPoint]
  rw [if_neg hc, if_neg hc, if_neg hne]

theorem findBreakPoint_case_nl (rem : List Char) (M : Nat)
    (hc1 : jsLastIndexOf rem ['\n', '\n'] M = -1 ∨
      2 * jsLastIndexOf rem ['\n', '\n'] M < (M : Int))
    (hc2 : ¬(jsLastIndexOf rem ['\n'] M = -1 ∨
      2 * jsLastIndexOf rem ['\n'] M < (M : Int))) :
    findBreakPoint rem M = jsLastIndexOf rem ['\n'] M := by
  have hne : ¬ jsLastIndexOf rem ['\n'] M = -1 := fun h => hc2 (Or.inl h)
  simp only [findBreakPoint]
  rw [if_pos hc1, if_neg hc2, if_neg hne]

theorem findBreakPoint_case_sp (rem : List Char) (M : Nat)
    (hc1 : jsLastIndexOf rem ['\n', '\n'] M = -1 ∨
      2 * jsLastIndexOf rem ['\n', '\n'] M < (M : Int))
    (hc2 : jsLastIndexOf rem ['\n'] M = -1 ∨
      2 * jsLastIndexOf rem ['\n'] M < (M : Int))
    (hc3 : ¬ jsLastIndexOf rem [' '] M = -1) :
    findBreakPoint rem M = jsLastIndexOf rem [' '] M := by
  simp only [findBreakPoint]
  rw [if_pos hc1, if_pos hc2, if_neg hc3]

theorem findBreakPoint_case_hard (rem : List Char) (M : Nat)
    (hc1 : jsLastIndexOf rem ['\n', '\n'] M = -1 ∨
      2 * jsLastIndexOf rem ['\n', '\n'] M < (M : Int))
    (hc2 : jsLastIndexOf rem ['\n'] M = -1 ∨
      2 * jsLastIndexOf rem ['\n'] M < (M : Int))
    (hc3 : jsLastIndexOf rem [' '] M = -1) :
    findBreakPoint rem M = (M : Int) := by
  simp only [findBreakPoint]
  rw [if_pos hc1, if_pos hc2, if_pos hc3]

theorem upperHalf_dichotomy (s pat : List Char) (M : Nat) :
    ((jsLastIndexOf s pat M = -1 ∨ 2 * jsLastIndexOf s pat M < (M : Int)) ∧
      ¬ HasUpperHalfBreak pat s M) ∨
    (¬ (jsLastIndexOf s pat M = -1 ∨ 2 * jsLastIndexOf s pat M < (M : Int)) ∧
      ∃ i : Nat, jsLastIndexOf s pat M = (i : Int) ∧ IsLastBreak pat s M i ∧
        HasUpperHalfBreak pat s M) := by
  rcases lastIndexOfAux_spec s pat M with ⟨hn, hall⟩ | ⟨i, hs, hile, hocc, hmax⟩
  · left
    refine ⟨Or.inl (jsLastIndexOf_of_none _ _ _ hn), ?_⟩
    rintro ⟨j, hj, hoccj, _⟩
    rw [hall j hj] at hoccj
    exact Bool.noConfusion hoccj
  · have hji : jsLastIndexOf s pat M = (i : Int) := jsLastIndexOf_of_some _ _ _ _ hs
    by_cases hhi : M ≤ 2 * i
    · right
      refine ⟨?_, i, hji, ⟨hile, hocc, hmax⟩, ⟨i, hile, hocc, hhi⟩⟩
      rw [hji]
      intro hor
      rcases hor with h1 | h2 <;> omega
    · left
      refine ⟨Or.inr (by rw [hji]; omega), ?_⟩
      rintro ⟨j, hj, hoccj, hjm⟩
      have := hmax j hj hoccj
      omega

/-- Full characterisation of the break-point cascade: the last double
newline when one lies in the upper half of the window, else the last single
newline when one lies in the upper half, else the last space anywhere in
the window (no half-window condition is applied to spaces), else a hard cut
at `maxLength`. -/
theorem findBreakPoint_spec (rem : List Char) (M : Nat) :
    (∃ i : Nat, findBreakPoint rem M = (i : Int) ∧
        IsLastBreak ['\n', '\n'] rem M i ∧ HasUpperHalfBreak ['\n', '\n'] rem M) ∨
    (¬ HasUpperHalfBreak ['\n', '\n'] rem M ∧
      ∃ i : Nat, findBreakPoint rem M = (i : Int) ∧
        IsLastBreak ['\n'] rem M i ∧ HasUpperHalfBreak ['\n'] rem M) ∨
    (¬ HasUpperHalfBreak ['\n', '\n'] rem M ∧ ¬ HasUpperHalfBreak ['\n'] rem M ∧
      ∃ i : Nat, findBreakPoint rem M = (i : Int) ∧ IsLastBreak [' '] rem M i) ∨
    (¬ HasUpperHalfBreak ['\n', '\n'] rem M ∧ ¬ HasUpperHalfBreak ['\n'] rem M ∧
      (∀ j : Nat, j ≤ M → occursAt [' '] rem j = false) ∧
      findBreakPoint rem M = (M : Int)) := by
  rcases upperHalf_dichotomy rem ['\n', '\n'] M with ⟨hc1, hnA⟩ | ⟨hc1, d, hd, hdl, hdu⟩
  · rcases upperHalf_dichotomy rem ['\n'] M with ⟨hc2, hnB⟩ | ⟨hc2, n, hn, hnl, hnu⟩
    · rcases lastIndexOfAux_spec rem [' '] M with ⟨hsn, hsall⟩ | ⟨p, hsp, hple, hpocc, hpmax⟩
      · exact Or.inr (Or.inr (Or.inr ⟨hnA, hnB, hsall,
          findBreakPoint_case_hard rem M hc1 hc2 (jsLastIndexOf_of_none _ _ _ hsn)⟩))
      · have hjp := jsLastIndexOf_of_some _ _ _ _ hsp
        refine Or.inr (Or.inr (Or.inl ⟨hnA, hnB, p, ?_, hple, hpocc, hpmax⟩))
        rw [findBreakPoint_case_sp rem M hc1 hc2 (by rw [hjp]; omega), hjp]
    · exact Or.inr (Or.inl ⟨hnA, n,
        by rw [findBreakPoint_case_nl rem M hc1 hc2, hn], hnl, hnu⟩)
  · exact Or.inl ⟨d, by rw [findBreakPoint_case_dnl rem M hc1, hd], hdl, hdu⟩

theorem findBreakPoint_bounds (rem : List Char) (M : Nat) :
    0 ≤ findBreakPoint rem M ∧ findBreakPoint rem M ≤ (M : Int) := by
  rcases findBreakPoint_spec rem M with
      ⟨i, hi, ⟨hile, _, _⟩, _⟩ | ⟨_, i, hi, ⟨hile, _, _⟩, _⟩ |
      ⟨_, _, i, hi, hile, _, _⟩ | ⟨_, _, _, hi⟩ <;> rw [hi] <;> omega

theorem findBreakPoint_toNat_le (rem : List Char) (M : Nat) :
    (findBreakPoint rem M).toNat ≤ M := by
  have h := findBreakPoint_bounds rem M
  omega

theorem findBreakPoint_eq_zero_space (rem : List Char) (M : Nat) (hM : 1 ≤ M)
    (h0 : (findBreakPoint rem M).toNat = 0) : occursAt [' '] rem 0 = true := by
  have hb := findBreakPoint_bounds rem M
  have hz : findBreakPoint rem M = 0 := by omega
  rcases findBreakPoint_spec rem M with
      ⟨i, hi, ⟨_, _, hmax⟩, ⟨j, hjle, hjocc, hjM⟩⟩ |
      ⟨_, i, hi, ⟨_, _, hmax⟩, ⟨j, hjle, hjocc, hjM⟩⟩ |
      ⟨_, _, i, hi, _, hocc, _⟩ | ⟨_, _, _, hi⟩
  · exfalso
    have hji := hmax j hjle hjocc
    rw [hz] at hi
    omega
  · exfalso
    have hji := hmax j hjle hjocc
    rw [hz] at hi
    omega
  · have hi0 : i = 0 := by rw [hz] at hi; omega
    rw [hi0] at hocc
    exact hocc
  · exfalso
    rw [hz] at hi
    omega

theorem trimRightChars_decomp (l : List Char) :
    ∃ b : List Char, l = trimRightChars l ++ b ∧ IsWsList b := by
  refine ⟨(l.reverse.takeWhile isJsWhitespace).reverse, ?_, ?_⟩
  · have h : trimRightChars l ++ (l.reverse.takeWhile isJsWhitespace).reverse
        = (l.reverse.takeWhile isJsWhitespace ++ l.reverse.dropWhile isJsWhitespace).reverse := by
      rw [List.reverse_append]
      rfl
    rw [h, List.takeWhile_append_dropWhile, List.reverse_reverse]
  · intro c hc
    rw [List.mem_reverse] at hc
    exact List.mem_takeWhile_imp hc

theorem trimLeftChars_decomp (l : List Char) :
    ∃ a : List Char, l = a ++ trimLeftChars l ∧ IsWsList a := by
  refine ⟨l.takeWhile isJsWhitespace, ?_, ?_⟩
  · rw [trimLeftChars, List.takeWhile_append_dropWhile]
  · intro c hc
    exact List.mem_takeWhile_imp hc

theorem jsTrim_decomp (l : List Char) :
    ∃ a b : List Char, l = a ++ jsTrim l ++ b ∧ IsWsList a ∧ IsWsList b := by
  obtain ⟨a, ha, hwa⟩ := trimLeftChars_decomp l
  obtain ⟨b, hb, hwb⟩ := trimRightChars_decomp (trimLeftChars l)
  refine ⟨a, b, ?_, hwa, hwb⟩
  rw [jsTrim, List.append_assoc, ← hb, ← ha]

theorem jsTrim_length_le (l : List Char) : (jsTrim l).length ≤ l.length := by
  obtain ⟨a, b, he, _, _⟩ := jsTrim_decomp l
  have hlen := congrArg List.length he
  simp only [List.length_append] at hlen
  omega

theorem jsTrim_length_lt_of_ws_head (c : Char) (t : List Char)
    (hc : isJsWhitespace c = true) :
    (jsTrim (c :: t)).length < (c :: t).length := by
  have h1 : trimLeftChars (c :: t) = trimLeftChars t := by
    simp [trimLeftChars, List.dropWhile_cons, hc]
  have h2 : (trimRightChars (trimLeftChars t)).length ≤ (trimLeftChars t).length := by
    obtain ⟨b, hb, _⟩ := trimRightChars_decomp (trimLeftChars t)
    have hlen := congrArg List.length hb
    simp only [List.length_append] at hlen
    omega
  have h3 : (trimLeftChars t).length ≤ t.length := by
    obtain ⟨a, ha, _⟩ := trimLeftChars_decomp t
    have hlen := congrArg List.length ha
    simp only [List.length_append] at hlen
    omega
  simp only [jsTrim, h1, List.length_cons]
  omega

theorem segment_tail_lt (rem : List Char) (M : Nat) (hM : 1 ≤ M)
    (hlen : M < rem.length) :
    (jsTrim (rem.drop (findBreakPoint rem M).toNat)).length < rem.length := by
  by_cases h0 : (findBreakPoint rem M).toNat = 0
  · have hsp := findBreakPoint_eq_zero_space rem M hM h0
    rw [h0, List.drop_zero]
    rcases rem with _ | ⟨c, t⟩
    · simp at hlen
    · have hc : c = ' ' := by
        simp only [occursAt, List.drop_zero, List.isPrefixOf, Bool.and_eq_true,
          beq_iff_eq] at hsp
        exact hsp.1.symm
      rw [hc]
      exact jsTrim_length_lt_of_ws_head ' ' t (by simp [isJsWhitespace])
  · have hdl : (rem.drop (findBreakPoint rem M).toNat).length < rem.length := by
      rw [List.length_drop]
      omega
    exact lt_of_le_of_lt (jsTrim_length_le _) hdl

theorem segmentAux_succ (M f : Nat) (rem : List Char) :
    segmentAux M (f + 1) rem =
      if rem.length = 0 then []
      else if rem.length ≤ M then [rem]
      else rem.take (findBreakPoint rem M).toNat ::
        segmentAux M f (jsTrim (rem.drop (findBreakPoint rem M).toNat)) := rfl

/-- The fuel passed to `segmentAux` is irrelevant as soon as it covers the
length of the remaining text: the loop always terminates within that many
iterations. -/
theorem segmentAux_fuel (M : Nat) (hM : 1 ≤ M) :
    ∀ (f : Nat) (rem : List Char), rem.length ≤ f →
      segmentAux M f rem = segmentAux M rem.length rem := by
  intro f
  induction f using Nat.strong_induction_on with
  | _ f ih =>
    intro rem hle
    rcases Nat.eq_zero_or_pos f with hf0 | hfpos
    · rw [hf0]
      have h0 : rem.length = 0 := by omega
      rw [h0]
    · obtain ⟨g, rfl⟩ : ∃ g, f = g + 1 := ⟨f - 1, by omega⟩
      rcases Nat.eq_zero_or_pos rem.length with h0 | hpos
      · have hnil : rem = [] := List.length_eq_zero.mp h0
        rw [hnil]
        simp [segmentAux, h0]
      · obtain ⟨n, hn⟩ : ∃ n, rem.length = n + 1 := ⟨rem.length - 1, by omega⟩
        rw [hn, segmentAux_succ, segmentAux_succ]
        by_cases hsm : rem.length ≤ M
        · rw [if_neg (by omega), if_pos hsm, if_neg (by omega), if_pos hsm]
        · rw [if_neg (by omega), if_neg hsm, if_neg (by omega), if_neg hsm]
          have htail := segment_tail_lt rem M hM (by omega)
          have i1 := ih g (by omega) (jsTrim (rem.drop (findBreakPoint rem M).toNat)) (by omega)
          have i2 := ih n (by omega) (jsTrim (rem.drop (findBreakPoint rem M).toNat)) (by omega)
          rw [i1, i2]

theorem segmentAux_ne_nil (M f : Nat) (rem : List Char) (hpos : 0 < rem.length)
    (hf : 1 ≤ f) : segmentAux M f rem ≠ [] := by
  obtain ⟨g, rfl⟩ : ∃ g, f = g + 1 := ⟨f - 1, by omega⟩
  rw [segmentAux_succ]
  by_cases hsm : rem.length ≤ M
  · rw [if_neg (by omega), if_pos hsm]
    exact List.cons_ne_nil _ _
  · rw [if_neg (by omega), if_neg hsm]
    exact List.cons_ne_nil _ _

theorem length_le_of_mem_segmentAux (M : Nat) :
    ∀ (f : Nat) (rem c : List Char), c ∈ segmentAux M f rem → c.length ≤ M := by
  intro f
  induction f with
  | zero =>
    intro rem c hc
    simp [segmentAux] at hc
  | succ f ih =>
    intro rem c hc
    rw [segmentAux_succ] at hc
    by_cases h0 : rem.length = 0
    · rw [if_pos h0] at hc
      simp at hc
    · rw [if_neg h0] at hc
      by_cases hm : rem.length ≤ M
      · rw [if_pos hm] at hc
        have hceq : c = rem := by simpa using hc
        rw [hceq]
        exact hm
      · rw [if_neg hm] at hc
        rcases List.mem_cons.mp hc with hceq | hcmem
        · have h1 : (rem.take (findBreakPoint rem M).toNat).length ≤
              (findBreakPoint rem M).toNat := by
            simp [List.length_take]
          have h2 := findBreakPoint_toNat_le rem M
          rw [hceq]
          omega
        · exact ih _ _ hcmem

theorem length_le_of_mem_segment (text : List Char) (M : Nat) (c : List Char)
    (hc : c ∈ segment text M) : c.length ≤ M := by
  rw [segment] at hc
  by_cases hsm : text.length ≤ M
  · rw [if_pos hsm] at hc
    have hceq : c = text := by simpa using hc
    rw [hceq]
    exact hsm
  · rw [if_neg hsm] at hc
    exact length_le_of_mem_segmentAux M _ _ _ hc

theorem Recon.append_ws {chs : List (List Char)} {t b : List Char}
    (h : Recon chs t) (hb : IsWsList b) : Recon chs (t ++ b) := by
  induction h with
  | nil w hw =>
    refine Recon.nil (w ++ b) ?_
    intro c hc
    rcases List.mem_append.mp hc with h1 | h2
    · exact hw c h1
    · exact hb c h2
  | cons c w chs t hw _ ihrec =>
    have h2 : (c ++ (w ++ t)) ++ b = c ++ (w ++ (t ++ b)) := by
      simp [List.append_assoc]
    rw [h2]
    exact Recon.cons c w chs (t ++ b) hw ihrec

theorem recon_segmentAux (M : Nat) (hM : 1 ≤ M) :
    ∀ (f : Nat) (rem : List Char), rem.length ≤ f →
      Recon (segmentAux M f rem) rem := by
  intro f
  induction f with
  | zero =>
    intro rem hle
    have hnil : rem = [] := by
      have := Nat.le_zero.mp hle
      exact List.length_eq_zero.mp this
    rw [hnil]
    exact Recon.nil [] (by intro c hc; simp at hc)
  | succ f ih =>
    intro rem hle
    rw [segmentAux_succ]
    by_cases h0 : rem.length = 0
    · rw [if_pos h0]
      have hnil : rem = [] := List.length_eq_zero.mp h0
      rw [hnil]
      exact Recon.nil [] (by intro c hc; simp at hc)
    · rw [if_neg h0]
      by_cases hm : rem.length ≤ M
      · rw [if_pos hm]
        have h1 : Recon [rem] (rem ++ ([] ++ [])) :=
          Recon.cons rem [] [] [] (by intro c hc; simp at hc)
            (Recon.nil [] (by intro c hc; simp at hc))
        simpa using h1
      · rw [if_neg hm]
        have htail := segment_tail_lt rem M hM (by omega)
        have ihr := ih (jsTrim (rem.drop (findBreakPoint rem M).toNat)) (by omega)
        obtain ⟨a, b, hdec, hwa, hwb⟩ :=
          jsTrim_decomp (rem.drop (findBreakPoint rem M).toNat)
        have hstep := Recon.cons (rem.take (findBreakPoint rem M).toNat) a
          (segmentAux M f (jsTrim (rem.drop (findBreakPoint rem M).toNat)))
          (jsTrim (rem.drop (findBreakPoint rem M).toNat) ++ b) hwa
          (ihr.append_ws hwb)
        have hre : rem = rem.take (findBreakPoint rem M).toNat ++
            (a ++ (jsTrim (rem.drop (findBreakPoint rem M).toNat) ++ b)) := by
          conv_lhs =>
            rw [← List.take_append_drop ((findBreakPoint rem M).toNat) rem, hdec]
          simp [List.append_assoc]
        rw [← hre] at hstep
        exact hstep

/-! ## Claim theorems: the response segmenter -/

/-- C2 (counterexample): on "a bcdefghijklmnop" with maxLength 10 the code
cuts at the last space, index 1, which lies strictly below the halfway
point of the window, while the cascade worded by the claim (half-window
test applied to candidates (a)-(c) alike) would make a hard cut at 10.
This falsifies the claim that a candidate from (a)-(c) is used only when it
occurs at or after the halfway point. -/
theorem c2_counterexample :
    findBreakPoint ("a bcdefghijklmnop".toList) 10 = 1 ∧
    occursAt [' '] ("a bcdefghijklmnop".toList) 1 = true ∧
    2 * 1 < 10 ∧
    findBreakPointSpecHalfAll ("a bcdefghijklmnop".toList) 10 = 10 ∧
    segment ("a bcdefghijklmnop".toList) 10 =
      ["a".toList, "bcdefghijk".toList, "lmnop".toList] := by
  refine ⟨by decide, by decide, by decide, by decide, by decide⟩

/-- C2 (amended): each cut chooses the break point within the first
maxLength characters of the remaining tail by this preference order: the
last double newline if it lies at or after the halfway point of the window,
else the last single newline if it lies at or after the halfway point,
else the last space anywhere in the window (no half-window condition
applies to the space candidate), else a hard cut at exactly maxLength;
moreover segment "abcdefghijklmnop" 10 = ["abcdefghij", "klmnop"] and every
produced chunk has length at most maxLength. -/
theorem c2_break_preference :
    (∀ (rem : List Char) (M : Nat),
      (HasUpperHalfBreak ['\n', '\n'] rem M →
        ∃ i : Nat, findBreakPoint rem M = (i : Int) ∧
          IsLastBreak ['\n', '\n'] rem M i) ∧
      (¬ HasUpperHalfBreak ['\n', '\n'] rem M → HasUpperHalfBreak ['\n'] rem M →
        ∃ i : Nat, findBreakPoint rem M = (i : Int) ∧ IsLastBreak ['\n'] rem M i) ∧
      (¬ HasUpperHalfBreak ['\n', '\n'] rem M → ¬ HasUpperHalfBreak ['\n'] rem M →
        (∃ j : Nat, j ≤ M ∧ occursAt [' '] rem j = true) →
        ∃ i : Nat, findBreakPoint rem M = (i : Int) ∧ IsLastBreak [' '] rem M i) ∧
      (¬ HasUpperHalfBreak ['\n', '\n'] rem M → ¬ HasUpperHalfBreak ['\n'] rem M →
        (∀ j : Nat, j ≤ M → occursAt [' '] rem j = false) →
        findBreakPoint rem M = (M : Int))) ∧
    (∀ (text : List Char) (M : Nat) (c : List Char),
      c ∈ segment text M → c.length ≤ M) ∧
    segment ("abcdefghijklmnop".toList) 10 =
      ["abcdefghij".toList, "klmnop".toList] := by
  refine ⟨?_, length_le_of_mem_segment, by decide⟩
  intro rem M
  refine ⟨?_, ?_, ?_, ?_⟩
  · intro hA
    rcases findBreakPoint_spec rem M with
        ⟨i, hi, hl, _⟩ | ⟨hnA, _⟩ | ⟨hnA, _, _⟩ | ⟨hnA, _, _, _⟩
    · exact ⟨i, hi, hl⟩
    · exact absurd hA hnA
    · exact absurd hA hnA
    · exact absurd hA hnA
  · intro hnA hB
    rcases findBreakPoint_spec rem M with
        ⟨_, _, _, hA⟩ | ⟨_, i, hi, hl, _⟩ | ⟨_, hnB, _⟩ | ⟨_, hnB, _, _⟩
    · exact absurd hA hnA
    · exact ⟨i, hi, hl⟩
    · exact absurd hB hnB
    · exact absurd hB hnB
  · intro hnA hnB hsp
    rcases findBreakPoint_spec rem M with
        ⟨_, _, _, hA⟩ | ⟨_, _, _, _, hB⟩ | ⟨_, _, i, hi, hl⟩ | ⟨_, _, hall, _⟩
    · exact absurd hA hnA
    · exact absurd hB hnB
    · exact ⟨i, hi, hl⟩
    · obtain ⟨j, hj, hjocc⟩ := hsp
      rw [hall j hj] at hjocc
      exact Bool.noConfusion hjocc
  · intro hnA hnB hall
    rcases findBreakPoint_spec rem M with
        ⟨_, _, _, hA⟩ | ⟨_, _, _, _, hB⟩ | ⟨_, _, i, _, hl⟩ | ⟨_, _, _, hM⟩
    · exact absurd hA hnA
    · exact absurd hB hnB
    · exfalso
      have hocc := hl.2.1
      rw [hall i hl.1] at hocc
      exact Bool.noConfusion hocc
    · exact hM

theorem c2_break_preference_witness :
    (∃ i : Nat, findBreakPoint ("abcdef\n\nghijklmnopq".toList) 10 = (i : Int) ∧
      IsLastBreak ['\n', '\n'] ("abcdef\n\nghijklmnopq".toList) 10 i) ∧
    segment ("abcdefghijklmnop".toList) 10 =
      ["abcdefghij".toList, "klmnop".toList] :=
  ⟨(c2_break_preference.1 ("abcdef\n\nghijklmnopq".toList) 10).1
      ⟨6, by decide, by decide, by decide⟩,
   c2_break_preference.2.2⟩

/-- C3 (counterexample): on "aaabbb   " with maxLength 5 the code trims the
tail on both sides (`.trim()`), producing ["aaabb", "b"], whereas the
claimed left-trim-only loop keeps the trailing spaces and produces
["aaabb", "b   "].  This falsifies the claim that the remaining tail is
trimmed only on its left (leading) side. -/
theorem c3_counterexample :
    segment ("aaabbb   ".toList) 5 = ["aaabb".toList, "b".toList] ∧
    segmentLeftTrim ("aaabbb   ".toList) 5 = ["aaabb".toList, "b   ".toList] ∧
    segment ("aaabbb   ".toList) 5 ≠ segmentLeftTrim ("aaabbb   ".toList) 5 := by
  refine ⟨by decide, by decide, by decide⟩

/-- C3 (amended): for every input text and maxLength ≥ 1 the segmenter
returns a non-empty ordered sequence of chunks whose concatenation, up to
whitespace dropped at chunk boundaries (including the final boundary),
reconstructs the original content; after each cut the remaining tail is
trimmed of whitespace on both sides before the next iteration; and an
input with length ≤ maxLength yields exactly one chunk identical to the
input. -/
theorem c3_segment_lossless :
    ∀ (text : List Char) (M : Nat), 1 ≤ M →
      segment text M ≠ [] ∧
      Recon (segment text M) text ∧
      (text.length ≤ M → segment text M = [text]) := by
  intro text M hM
  refine ⟨?_, ?_, ?_⟩
  · rw [segment]
    by_cases hsm : text.length ≤ M
    · rw [if_pos hsm]
      exact List.cons_ne_nil _ _
    · rw [if_neg hsm]
      exact segmentAux_ne_nil M text.length text (by omega) (by omega)
  · rw [segment]
    by_cases hsm : text.length ≤ M
    · rw [if_pos hsm]
      have h1 : Recon [text] (text ++ ([] ++ [])) :=
        Recon.cons text [] [] [] (by intro c hc; simp at hc)
          (Recon.nil [] (by intro c hc; simp at hc))
      simpa using h1
    · rw [if_neg hsm]
      exact recon_segmentAux M hM text.length text (le_refl _)
  · intro h
    rw [segment, if_pos h]

theorem c3_segment_lossless_witness :
    segment ("hi".toList) 5 ≠ [] ∧
    Recon (segment ("hi".toList) 5) ("hi".toList) ∧
    segment ("hi".toList) 5 = ["hi".toList] :=
  ⟨(c3_segment_lossless ("hi".toList) 5 (by decide)).1,
   (c3_segment_lossless ("hi".toList) 5 (by decide)).2.1,
   (c3_segment_lossless ("hi".toList) 5 (by decide)).2.2 (by decide)⟩

/-- C10: the chunk-splitting loop terminates for every input string: at
every iteration either the chosen break point is at least 1, or it is 0
only when the remaining tail begins with a space that the subsequent trim
removes, so the length of the remaining tail strictly decreases; hence the
loop result does not depend on the fuel bound once it covers the length of
the text. -/
theorem c10_loop_terminates :
    (∀ (rem : List Char) (M : Nat), 1 ≤ M → M < rem.length →
      (1 ≤ (findBreakPoint rem M).toNat ∨
        ((findBreakPoint rem M).toNat = 0 ∧ rem.head? = some ' ')) ∧
      (jsTrim (rem.drop (findBreakPoint rem M).toNat)).length < rem.length) ∧
    (∀ M : Nat, 1 ≤ M → ∀ (f g : Nat) (rem : List Char),
      rem.length ≤ f → rem.length ≤ g →
      segmentAux M f rem = segmentAux M g rem) := by
  constructor
  · intro rem M hM hlen
    refine ⟨?_, segment_tail_lt rem M hM hlen⟩
    by_cases h0 : (findBreakPoint rem M).toNat = 0
    · refine Or.inr ⟨h0, ?_⟩
      have hsp := findBreakPoint_eq_zero_space rem M hM h0
      rcases rem with _ | ⟨c, t⟩
      · simp at hlen
      · have hc : c = ' ' := by
          simp only [occursAt, List.drop_zero, List.isPrefixOf, Bool.and_eq_true,
            beq_iff_eq] at hsp
          exact hsp.1.symm
        rw [hc]
        rfl
    · exact Or.inl (by omega)
  · intro M hM f g rem hf hg
    rw [segmentAux_fuel M hM f rem hf, segmentAux_fuel M hM g rem hg]

theorem c10_loop_terminates_witness :
    ((1 ≤ (findBreakPoint ("abcdefgh".toList) 5).toNat ∨
        ((findBreakPoint ("abcdefgh".toList) 5).toNat = 0 ∧
          ("abcdefgh".toList).head? = some ' ')) ∧
      (jsTrim (("abcdefgh".toList).drop
          (findBreakPoint ("abcdefgh".toList) 5).toNat)).length <
        ("abcdefgh".toList).length) ∧
    segmentAux 5 8 ("abcdefgh".toList) = segmentAux 5 9 ("abcdefgh".toList) :=
  ⟨c10_loop_terminates.1 ("abcdefgh".toList) 5 (by decide) (by decide),
   c10_loop_terminates.2 5 (by decide) 8 9 ("abcdefgh".toList) (by decide) (by decide)⟩

/-! ## Properties of the persistence layer -/

theorem jsTruthyString_some_of_ne {u : String} (h : u ≠ "") :
    jsTruthyString (some u) = some u := by
  simp [jsTruthyString, h]

theorem upsertGuild_users (db : DB) (g m : String) :
    (upsertGuild db g m).users = db.users := by
  unfold upsertGuild
  split <;> rfl

theorem upsertUser_guilds (db : DB) (u m : String) :
    (upsertUser db u m).guilds = db.guilds := by
  unfold upsertUser
  split <;> rfl

theorem upsertUser_users (db : DB) (u m : String) :
    (upsertUser db u m).users =
      if db.users.any (fun x => decide (x.id = u)) then
        db.users.map (fun x =>
          if x.id = u then { x with default_model := some m } else x)
      else db.users ++ [{ id := u, default_model := some m }] := by
  unfold upsertUser
  split <;> simp_all

theorem find?_map_upsert (u m : String) :
    ∀ l : List UserRow, l.any (fun x => decide (x.id = u)) = true →
      ∃ r : UserRow,
        (l.map (fun x =>
            if x.id = u then { x with default_model := some m } else x)).find?
          (fun x => decide (x.id = u)) = some r ∧ r.default_model = some m := by
  intro l
  induction l with
  | nil => intro h; simp at h
  | cons y ys ih =>
    intro h
    by_cases hy : y.id = u
    · refine ⟨{ y with default_model := some m }, ?_, rfl⟩
      rw [List.map_cons, if_pos hy]
      exact List.find?_cons_of_pos _ (by simp [hy])
    · have h2 : ys.any (fun x => decide (x.id = u)) = true := by
        simp only [List.any_cons, Bool.or_eq_true, decide_eq_true_eq] at h
        rcases h with h1 | h1
        · exact absurd h1 hy
        · exact h1
      obtain ⟨r, hr, hrm⟩ := ih h2
      refine ⟨r, ?_, hrm⟩
      rw [List.map_cons, if_neg hy]
      rw [List.find?_cons_of_neg _ (by simp [hy])]
      exact hr

theorem find?_append_new (u m : String) :
    ∀ l : List UserRow, l.any (fun x => decide (x.id = u)) = false →
      (l ++ [({ id := u, default_model := some m } : UserRow)]).find?
          (fun x => decide (x.id = u))
        = some { id := u, default_model := some m } := by
  intro l
  induction l with
  | nil =>
    intro _
    rw [List.nil_append]
    exact List.find?_cons_of_pos _ (by simp)
  | cons y ys ih =>
    intro h
    simp only [List.any_cons, Bool.or_eq_false_iff, decide_eq_false_iff_not] at h
    rw [List.cons_append, List.find?_cons_of_neg _ (by simp [h.1])]
    exact ih (by simp [h.2])

theorem effectiveUserModel_setUserModel (db : DB) (u m : String) :
    effectiveUserModel (setUserModel db u m) u =
      if m = "" then none else some m := by
  unfold effectiveUserModel getUser
  rw [setUserModel, upsertUser_users]
  by_cases hany : db.users.any (fun x => decide (x.id = u)) = true
  · rw [if_pos hany]
    obtain ⟨r, hr, hrm⟩ := find?_map_upsert u m db.users hany
    rw [hr]
    simp [hrm, jsTruthyString]
  · rw [if_neg hany]
    rw [find?_append_new u m db.users (by simpa using hany)]
    simp [jsTruthyString]

theorem effectiveUserModel_setGuildModel (db : DB) (g m u : String) :
    effectiveUserModel (setGuildModel db g m) u = effectiveUserModel db u := by
  unfold effectiveUserModel getUser
  rw [setGuildModel, upsertGuild_users]

theorem memoryRowsOf_clear (db : DB) (u : String) :
    memoryRowsOf (clearMemory db u).2 u = [] := by
  unfold memoryRowsOf clearMemory
  rw [List.filter_eq_nil_iff]
  intro r hr
  have h2 := (List.mem_filter.mp hr).2
  simp only [Bool.not_eq_eq_eq_not, Bool.not_true, decide_eq_false_iff_not] at h2
  simpa using h2

theorem memoryRowsOf_addMemoryMessage_same (db : DB) (u role content : String)
    (model : Option String) (ts : Nat) :
    memoryRowsOf (addMemoryMessage db u role content model ts) u
      = memoryRowsOf db u ++
        [{ id := db.nextMemoryId, user_id := u, role := role, content := content,
           model := jsTruthyString model, created_at := ts }] := by
  unfold memoryRowsOf addMemoryMessage
  rw [List.filter_append]
  simp

theorem memoryRowsOf_foldl (u : String) :
    ∀ (msgs : List (String × String × Option String × Nat)) (db : DB),
      (memoryRowsOf (msgs.foldl (fun d q =>
          addMemoryMessage d u q.1 q.2.1 q.2.2.1 q.2.2.2) db) u).length
        = (memoryRowsOf db u).length + msgs.length := by
  intro msgs
  induction msgs with
  | nil => intro db; simp
  | cons q qs ih =>
    intro db
    rw [List.foldl_cons, ih, memoryRowsOf_addMemoryMessage_same]
    simp
    omega

theorem orderedInsert_eq_append (x : MemoryRow) :
    ∀ l : List MemoryRow, (∀ y ∈ l, ¬ memGe x y) →
      l.orderedInsert memGe x = l ++ [x] := by
  intro l
  induction l with
  | nil => intro _; rfl
  | cons y ys ih =>
    intro h
    rw [List.orderedInsert, if_neg (h y (List.mem_cons_self y ys)),
      ih (fun z hz => h z (List.mem_cons_of_mem y hz))]
    rfl

theorem insertionSort_eq_reverse :
    ∀ l : List MemoryRow, l.Pairwise (fun a b => ¬ memGe a b) →
      List.insertionSort memGe l = l.reverse := by
  intro l
  induction l with
  | nil => intro _; rfl
  | cons x xs ih =>
    intro h
    rw [List.insertionSort, ih (List.Pairwise.of_cons h)]
    rw [orderedInsert_eq_append x xs.reverse (by
      intro y hy
      rw [List.mem_reverse] at hy
      exact (List.pairwise_cons.mp h).1 y hy)]
    rw [List.reverse_cons]

/-! ## Claim theorems: the persistence layer -/

/-- C1 (code bug evidence): in the user scope the claim holds — a first add
succeeds, an immediately following get returns the inserted content, and a
second add of the same (guild, user, name) fails with the distinct
uniqueViolation condition — but in the server scope a second addContext of
the same (guild, name) succeeds silently and leaves two rows, because
SQLite treats the NULL user_id values inside
UNIQUE(guild_id, user_id, name) as pairwise distinct. -/
theorem c1_unique_context_scopes :
    (∃ d1 : DB,
      addContext DB.init "g" "doc" "c1" "f.txt" "txt" (some "alice") 10 =
        Except.ok d1 ∧
      (getContext d1 "g" "doc" (some "alice")).map ContextRow.content = some "c1" ∧
      addContext d1 "g" "doc" "c2" "f.txt" "txt" (some "alice") 11 =
        Except.error SqlError.uniqueViolation) ∧
    (∃ d1 d2 : DB,
      addContext DB.init "g" "doc" "c1" "f.txt" "txt" none 10 = Except.ok d1 ∧
      addContext d1 "g" "doc" "c2" "f.txt" "txt" none 11 = Except.ok d2 ∧
      (d2.contexts.filter (fun r =>
        decide (r.guild_id = "g" ∧ r.user_id = none ∧ r.name = "doc"))).length
        = 2) := by
  exact ⟨⟨_, rfl, by decide, rfl⟩, ⟨_, _, rfl, rfl, by decide⟩⟩

/-- C5: resolveModel returns the user default_model when set (set meaning a
non-null, non-empty value — the truthiness test the source applies), else
the guild default_model when set, else the process-wide fallback; it is a
total function with no error path, and when neither a user nor a guild
preference has been written it returns the fallback default. -/
theorem c5_resolution_order :
    (∀ (db : DB) (g u : String) (env : Option String),
      (∀ m : String, effectiveUserModel db u = some m →
        getDefaultModel db g u env = m) ∧
      (effectiveUserModel db u = none →
        ∀ m : String, effectiveGuildModel db g = some m →
          getDefaultModel db g u env = m) ∧
      (effectiveUserModel db u = none → effectiveGuildModel db g = none →
        getDefaultModel db g u env = fallbackDefault env)) ∧
    (∀ (g u : String) (env : Option String),
      getDefaultModel DB.init g u env = fallbackDefault env) := by
  constructor
  · intro db g u env
    refine ⟨?_, ?_, ?_⟩
    · intro m hm
      simp only [getDefaultModel, hm]
    · intro hu m hm
      simp only [getDefaultModel, hu, hm]
    · intro hu hg
      simp only [getDefaultModel, hu, hg]
  · intro g u env
    rfl

theorem c5_resolution_order_witness :
    getDefaultModel DB.init "g" "u" none = fallbackDefault none ∧
    getDefaultModel (setGuildModel DB.init "g" "gm") "g" "u" none = "gm" :=
  ⟨(c5_resolution_order.1 DB.init "g" "u" none).2.2 rfl rfl,
   (c5_resolution_order.1 (setGuildModel DB.init "g" "gm") "g" "u" none).2.1
     rfl "gm" rfl⟩

/-- C6 (counterexample): with the empty string as the user model, both
write orders leave resolution at the guild model, because the source tests
`if (user?.default_model)` and the empty string is falsy in JavaScript; so
the claim fails for m = "". -/
theorem c6_counterexample :
    getDefaultModel (setGuildModel (setUserModel DB.init "u" "") "g" "gm")
        "g" "u" none = "gm" ∧
    getDefaultModel (setUserModel (setGuildModel DB.init "g" "gm") "u" "")
        "g" "u" none = "gm" ∧
    ("gm" : String) ≠ "" := by
  exact ⟨rfl, rfl, by decide⟩

/-- C6 (amended): for every guild g, user u, non-empty model m and model m2,
after setUserModel(u, m) and setGuildModel(g, m2) in either order,
resolveModel(g, u) returns m — the user-level preference wins regardless of
write order. -/
theorem c6_user_precedence :
    ∀ (db : DB) (g u m m2 : String) (env : Option String), m ≠ "" →
      getDefaultModel (setGuildModel (setUserModel db u m) g m2) g u env = m ∧
      getDefaultModel (setUserModel (setGuildModel db g m2) u m) g u env = m := by
  intro db g u m m2 env hm
  have h1 : effectiveUserModel (setGuildModel (setUserModel db u m) g m2) u
      = some m := by
    rw [effectiveUserModel_setGuildModel, effectiveUserModel_setUserModel,
      if_neg hm]
  have h2 : effectiveUserModel (setUserModel (setGuildModel db g m2) u m) u
      = some m := by
    rw [effectiveUserModel_setUserModel, if_neg hm]
  constructor
  · simp only [getDefaultModel, h1]
  · simp only [getDefaultModel, h2]

theorem c6_user_precedence_witness :
    getDefaultModel (setGuildModel (setUserModel DB.init "u" "um") "g" "gm")
        "g" "u" none = "um" ∧
    getDefaultModel (setUserModel (setGuildModel DB.init "g" "gm") "u" "um")
        "g" "u" none = "um" :=
  c6_user_precedence DB.init "g" "u" "um" "gm" none (by decide)

/-- C9: removeContext touches only the scope named by its arguments: with a
userId it deletes exactly the rows of the addressed (guild, user, name)
triple and leaves everything else (other context rows and the other three
tables) unchanged; without a userId it deletes exactly the matching
server-scoped rows and leaves every user-scoped row unchanged; the
returned boolean is true exactly when a row in the addressed scope
existed. -/
theorem c9_remove_scope_isolated :
    ∀ (db : DB) (g n u : String), u ≠ "" →
      ((∀ r : ContextRow, r ∈ (removeContext db g n (some u)).2.contexts ↔
          (r ∈ db.contexts ∧ ¬(r.guild_id = g ∧ r.user_id = some u ∧ r.name = n))) ∧
        ((removeContext db g n (some u)).1 = true ↔
          ∃ r ∈ db.contexts, r.guild_id = g ∧ r.user_id = some u ∧ r.name = n) ∧
        (removeContext db g n (some u)).2.guilds = db.guilds ∧
        (removeContext db g n (some u)).2.users = db.users ∧
        (removeContext db g n (some u)).2.memories = db.memories) ∧
      ((∀ r : ContextRow, r ∈ (removeContext db g n none).2.contexts ↔
          (r ∈ db.contexts ∧ ¬(r.guild_id = g ∧ r.name = n ∧ r.user_id = none))) ∧
        ((removeContext db g n none).1 = true ↔
          ∃ r ∈ db.contexts, r.guild_id = g ∧ r.name = n ∧ r.user_id = none) ∧
        (removeContext db g n none).2.guilds = db.guilds ∧
        (removeContext db g n none).2.users = db.users ∧
        (removeContext db g n none).2.memories = db.memories) := by
  intro db g n u hu
  have hju := jsTruthyString_some_of_ne hu
  constructor
  · refine ⟨?_, ?_, ?_, ?_, ?_⟩
    · intro r
      simp [removeContext, hju, List.mem_filter]
      tauto
    · simp only [removeContext, hju, decide_eq_true_eq]
      rw [List.length_pos_iff_exists_mem]
      constructor
      · rintro ⟨r, hr⟩
        have hm := List.mem_filter.mp hr
        exact ⟨r, hm.1, of_decide_eq_true hm.2⟩
      · rintro ⟨r, hr, hp⟩
        exact ⟨r, List.mem_filter.mpr ⟨hr, decide_eq_true hp⟩⟩
    · simp [removeContext, hju]
    · simp [removeContext, hju]
    · simp [removeContext, hju]
  · refine ⟨?_, ?_, ?_, ?_, ?_⟩
    · intro r
      simp [removeContext, jsTruthyString, List.mem_filter]
      tauto
    · simp only [removeContext, jsTruthyString, decide_eq_true_eq]
      rw [List.length_pos_iff_exists_mem]
      constructor
      · rintro ⟨r, hr⟩
        have hm := List.mem_filter.mp hr
        exact ⟨r, hm.1, of_decide_eq_true hm.2⟩
      · rintro ⟨r, hr, hp⟩
        exact ⟨r, List.mem_filter.mpr ⟨hr, decide_eq_true hp⟩⟩
    · simp [removeContext, jsTruthyString]
    · simp [removeContext, jsTruthyString]
    · simp [removeContext, jsTruthyString]

theorem c9_remove_scope_isolated_witness :
    ((removeContext
        (⟨[], [],
          [⟨1, "g", some "alice", "doc", "cu", "f", "t", 10⟩,
           ⟨2, "g", none, "doc", "cs", "f", "t", 11⟩], [], 3, 1⟩ : DB)
        "g" "doc" (some "alice")).1 = true ↔
      ∃ r ∈ (⟨[], [],
          [⟨1, "g", some "alice", "doc", "cu", "f", "t", 10⟩,
           ⟨2, "g", none, "doc", "cs", "f", "t", 11⟩], [], 3, 1⟩ : DB).contexts,
        r.guild_id = "g" ∧ r.user_id = some "alice" ∧ r.name = "doc") ∧
    (removeContext
        (⟨[], [],
          [⟨1, "g", some "alice", "doc", "cu", "f", "t", 10⟩,
           ⟨2, "g", none, "doc", "cs", "f", "t", 11⟩], [], 3, 1⟩ : DB)
        "g" "doc" (some "alice")).2.memories = [] :=
  ⟨(c9_remove_scope_isolated _ "g" "doc" "alice" (by decide)).1.2.1,
   (c9_remove_scope_isolated _ "g" "doc" "alice" (by decide)).1.2.2.2.2⟩

theorem ctxGe_created_le {a b : ContextRow} (h : ctxGe a b) :
    b.created_at ≤ a.created_at := by
  rcases h with h | ⟨h1, h2⟩
  · omega
  · omega

theorem not_memGe_of_inc {a b : MemoryRow}
    (h : a.id < b.id ∧ a.created_at ≤ b.created_at) : ¬ memGe a b := by
  intro hge
  rcases hge with h2 | ⟨h2, h3⟩
  · omega
  · omega

/-- C7: getContext with a userId returns the user-scoped row when one
exists and otherwise falls back to the server-scoped lookup of the same
name (the user-scoped context shadows the server-scoped one without
deleting it — getContext is a pure read); getAllContexts for the user
scope returns exactly the personal contexts of that user, most recent
first, and never includes the server-scoped ones. -/
theorem c7_get_user_precedence :
    ∀ (db : DB) (g n u : String), u ≠ "" →
      ((∃ r ∈ db.contexts, r.guild_id = g ∧ r.user_id = some u ∧ r.name = n) →
        ∃ r : ContextRow, getContext db g n (some u) = some r ∧
          r ∈ db.contexts ∧ r.guild_id = g ∧ r.user_id = some u ∧ r.name = n) ∧
      ((∀ r ∈ db.contexts, ¬(r.guild_id = g ∧ r.user_id = some u ∧ r.name = n)) →
        getContext db g n (some u) = getServerContext db g n) ∧
      (∀ r : ContextRow, r ∈ getAllContexts db g (some u) ↔
        (r ∈ db.contexts ∧ r.guild_id = g ∧ r.user_id = some u)) ∧
      (getAllContexts db g (some u)).Pairwise
        (fun a b => b.created_at ≤ a.created_at) := by
  intro db g n u hu
  have hju := jsTruthyString_some_of_ne hu
  refine ⟨?_, ?_, ?_, ?_⟩
  · rintro ⟨r0, hr0, hp0⟩
    have hsome : (db.contexts.find? (fun r =>
        decide (r.guild_id = g ∧ r.user_id = some u ∧ r.name = n))).isSome := by
      rw [List.find?_isSome]
      exact ⟨r0, hr0, decide_eq_true hp0⟩
    obtain ⟨r, hr⟩ := Option.isSome_iff_exists.mp hsome
    have hpr := List.find?_some hr
    simp only [decide_eq_true_eq] at hpr
    refine ⟨r, ?_, List.mem_of_find?_eq_some hr, hpr.1, hpr.2.1, hpr.2.2⟩
    simp only [getContext, hju, getUserContext, hr]
  · intro hall
    have hnone : db.contexts.find? (fun r =>
        decide (r.guild_id = g ∧ r.user_id = some u ∧ r.name = n)) = none := by
      rw [List.find?_eq_none]
      intro r hr
      simp only [decide_eq_true_eq]
      exact hall r hr
    simp only [getContext, hju, getUserContext, hnone]
  · intro r
    simp only [getAllContexts, hju, sortCtxDesc]
    rw [(List.perm_insertionSort ctxGe _).mem_iff, List.mem_filter,
      decide_eq_true_eq]
  · have hs := List.sorted_insertionSort ctxGe (db.contexts.filter (fun r =>
      decide (r.guild_id = g ∧ r.user_id = some u)))
    have hp := List.Pairwise.imp (fun hab => ctxGe_created_le hab) hs
    simpa [getAllContexts, hju, sortCtxDesc] using hp

theorem c7_get_user_precedence_witness :
    (∃ r : ContextRow,
      getContext
        (⟨[], [],
          [⟨1, "g", some "alice", "doc", "cu", "f", "t", 10⟩,
           ⟨2, "g", none, "doc", "cs", "f", "t", 11⟩], [], 3, 1⟩ : DB)
        "g" "doc" (some "alice") = some r ∧
      r ∈ (⟨[], [],
          [⟨1, "g", some "alice", "doc", "cu", "f", "t", 10⟩,
           ⟨2, "g", none, "doc", "cs", "f", "t", 11⟩], [], 3, 1⟩ : DB).contexts ∧
      r.guild_id = "g" ∧ r.user_id = some "alice" ∧ r.name = "doc") ∧
    (getAllContexts
        (⟨[], [],
          [⟨1, "g", some "alice", "doc", "cu", "f", "t", 10⟩,
           ⟨2, "g", none, "doc", "cs", "f", "t", 11⟩], [], 3, 1⟩ : DB)
        "g" (some "alice")).Pairwise
      (fun a b => b.created_at ≤ a.created_at) :=
  ⟨(c7_get_user_precedence _ "g" "doc" "alice" (by decide)).1
      ⟨⟨1, "g", some "alice", "doc", "cu", "f", "t", 10⟩, by decide⟩,
   (c7_get_user_precedence _ "g" "doc" "alice" (by decide)).2.2.2⟩

/-- C8: after exactly N appends for a user whose ledger is empty, clear
returns N; after a clear, history is empty for every limit and stats
reports count 0 with both timestamps absent. -/
theorem c8_clear_then_empty :
    (∀ (db : DB) (u : String)
        (msgs : List (String × String × Option String × Nat)),
      memoryRowsOf db u = [] →
      (clearMemory (msgs.foldl (fun d q =>
          addMemoryMessage d u q.1 q.2.1 q.2.2.1 q.2.2.2) db) u).1
        = msgs.length) ∧
    (∀ (db : DB) (u : String) (L : Nat),
      getMemoryHistory (clearMemory db u).2 u L = []) ∧
    (∀ (db : DB) (u : String),
      getMemoryStats (clearMemory db u).2 u =
        { count := 0, firstAt := none, lastAt := none }) := by
  refine ⟨?_, ?_, ?_⟩
  · intro db u msgs h0
    show (memoryRowsOf (msgs.foldl _ db) u).length = msgs.length
    rw [memoryRowsOf_foldl, h0]
    simp
  · intro db u L
    simp [getMemoryHistory, memoryRowsOf_clear, sortMemDesc]
  · intro db u
    simp [getMemoryStats, memoryRowsOf_clear, sqlMin, sqlMax, jsTruthyNat]

theorem c8_clear_then_empty_witness :
    (clearMemory (([("user", "m1", (none : Option String), 5),
        ("assistant", "m2", (none : Option String), 5)] :
        List (String × String × Option String × Nat)).foldl
        (fun d q => addMemoryMessage d "u" q.1 q.2.1 q.2.2.1 q.2.2.2)
        DB.init) "u").1 = 2 ∧
    getMemoryHistory (clearMemory DB.init "u").2 "u" 10 = [] ∧
    getMemoryStats (clearMemory DB.init "u").2 "u" =
      { count := 0, firstAt := none, lastAt := none } :=
  ⟨c8_clear_then_empty.1 DB.init "u" _ rfl,
   c8_clear_then_empty.2.1 DB.init "u" 10,
   c8_clear_then_empty.2.2 DB.init "u"⟩

/-- C4: on any database whose memory rows are in insertion order with a
monotone clock, history(u, L) returns exactly the most recent L rows of
the user (all of them when fewer than L exist) in oldest-first order,
projected to (role, content); ties in created_at are broken by the rowid.
In particular two appends from the empty database, even within the same
clock second, replay as [(user, m1), (assistant, m2)]. -/
theorem c4_history_window :
    (∀ (db : DB) (u : String) (L : Nat), MemOrdered db →
      getMemoryHistory db u L =
        ((memoryRowsOf db u).drop ((memoryRowsOf db u).length - L)).map
          (fun r => (r.role, r.content))) ∧
    (∀ (u m1 m2 : String) (mo1 mo2 : Option String) (ts1 ts2 : Nat), ts1 ≤ ts2 →
      getMemoryHistory
          (addMemoryMessage (addMemoryMessage DB.init u "user" m1 mo1 ts1)
            u "assistant" m2 mo2 ts2) u 10
        = [("user", m1), ("assistant", m2)]) := by
  constructor
  · intro db u L hord
    have hp : (memoryRowsOf db u).Pairwise (fun a b => ¬ memGe a b) := by
      have h1 := List.Pairwise.filter (R := fun a b : MemoryRow =>
        a.id < b.id ∧ a.created_at ≤ b.created_at)
        (fun r => decide (r.user_id = u)) hord
      exact List.Pairwise.imp (fun hab => not_memGe_of_inc hab) h1
    show ((List.insertionSort memGe (memoryRowsOf db u)).take L).reverse.map
        (fun r => (r.role, r.content)) = _
    rw [insertionSort_eq_reverse _ hp]
    rw [show ((memoryRowsOf db u).reverse.take L).reverse
        = (memoryRowsOf db u).rtake L from
      (List.rtake_eq_reverse_take_reverse _ _).symm]
    simp only [List.rtake]
  · intro u m1 m2 mo1 mo2 ts1 ts2 hts
    have hrows : memoryRowsOf
        (addMemoryMessage (addMemoryMessage DB.init u "user" m1 mo1 ts1)
          u "assistant" m2 mo2 ts2) u
        = [⟨1, u, "user", m1, jsTruthyString mo1, ts1⟩,
           ⟨2, u, "assistant", m2, jsTruthyString mo2, ts2⟩] := by
      rw [memoryRowsOf_addMemoryMessage_same, memoryRowsOf_addMemoryMessage_same]
      rfl
    have hp2 : ([⟨1, u, "user", m1, jsTruthyString mo1, ts1⟩,
        ⟨2, u, "assistant", m2, jsTruthyString mo2, ts2⟩] :
        List MemoryRow).Pairwise (fun a b => ¬ memGe a b) := by
      refine List.pairwise_cons.mpr ⟨?_, List.pairwise_singleton _ _⟩
      intro b hb
      have hb2 : b = ⟨2, u, "assistant", m2, jsTruthyString mo2, ts2⟩ := by
        simpa using hb
      rw [hb2]
      show ¬ (ts2 < ts1 ∨ (ts1 = ts2 ∧ 2 ≤ 1))
      omega
    show ((List.insertionSort memGe _).take 10).reverse.map
        (fun r => (r.role, r.content)) = _
    rw [hrows, insertionSort_eq_reverse _ hp2]
    simp

theorem c4_history_window_witness :
    MemOrdered (⟨[], [], [],
      [⟨1, "u", "user", "m1", none, 5⟩, ⟨2, "u", "assistant", "m2", none, 5⟩],
      1, 3⟩ : DB) ∧
    getMemoryHistory (⟨[], [], [],
      [⟨1, "u", "user", "m1", none, 5⟩, ⟨2, "u", "assistant", "m2", none, 5⟩],
      1, 3⟩ : DB) "u" 1 =
      ((memoryRowsOf (⟨[], [], [],
        [⟨1, "u", "user", "m1", none, 5⟩, ⟨2, "u", "assistant", "m2", none, 5⟩],
        1, 3⟩ : DB) "u").drop
          ((memoryRowsOf (⟨[], [], [],
            [⟨1, "u", "user", "m1", none, 5⟩,
             ⟨2, "u", "assistant", "m2", none, 5⟩], 1, 3⟩ : DB) "u").length - 1)).map
        (fun r => (r.role, r.content)) ∧
    getMemoryHistory
        (addMemoryMessage (addMemoryMessage DB.init "u" "user" "m1" none 5)
          "u" "assistant" "m2" none 5) "u" 10
      = [("user", "m1"), ("assistant", "m2")] :=
  ⟨by decide,
   c4_history_window.1 _ "u" 1 (by decide),
   c4_history_window.2 "u" "m1" "m2" none none 5 5 (Nat.le_refl 5)⟩

end Bot
